import Mathlib

/-!
Verification of the junction partitioning and hierarchical clustering engine
(`src/modules/clustering/hierarchical_clustering_method.cpp`).

The data types the engine consumes (`strand`, the mate/`Breakend` type, `Junction`,
`Cluster`) and the linkage library (`hclust_fast` / `cutree_cdist` from fastcluster)
are declared outside the analyzed sources; those parts are modelled from the
specification and are marked as such in their doc comments.  Everything else is a
direct translation of the C++ source.
-/

/-- Modelled from the spec: mapping orientation of a mate (forward or reverse strand);
the defining header `breakend.hpp` is not among the analyzed sources. -/
inductive strand : Type
  | forward : strand
  | reverse : strand
deriving DecidableEq, Repr

/-- Modelled from the spec: numeric index giving `strand` a total order inside the
composite sort keys. -/
def strand.idx : strand → Nat
  | .forward => 0
  | .reverse => 1

/-- Modelled from the spec: one endpoint (mate) of a junction, carrying a
sequence/chromosome name, an orientation and a signed integer genomic position
(`int32_t` in the source; positions are modelled as unbounded integers because no
claim exercises overflow of position arithmetic). -/
structure Breakend where
  seq_name : String
  orientation : strand
  position : Int
deriving DecidableEq, Repr

/-- Modelled from the spec: a junction record — two mate endpoints plus an
inserted-sequence payload.  The inserted sequence is modelled as a `String` of bases;
only its length enters the distance computation. -/
structure Junction where
  mate1 : Breakend
  mate2 : Breakend
  inserted_sequence : String
deriving DecidableEq, Repr

instance : Inhabited Junction :=
  ⟨⟨⟨"", .forward, 0⟩, ⟨"", .forward, 0⟩, ""⟩⟩

/-- Modelled from the spec: composite sort key of a mate (sequence name, orientation,
position); `operator<` of the mate type is declared outside the analyzed sources. -/
def Breakend.key (b : Breakend) : List Nat ×ₗ Nat ×ₗ Int :=
  toLex (b.seq_name.data.map Char.toNat, toLex (b.orientation.idx, b.position))

/-- Modelled from the spec: composite sort key of a junction
(mate 1, mate 2, inserted sequence), giving the total `Junction` order. -/
def Junction.key (j : Junction) :
    (List Nat ×ₗ Nat ×ₗ Int) ×ₗ (List Nat ×ₗ Nat ×ₗ Int) ×ₗ List Nat :=
  toLex (j.mate1.key, toLex (j.mate2.key, j.inserted_sequence.data.map Char.toNat))

/-- The total order on junctions used by `std::sort(current_partition.begin(), ...)`. -/
def junctionLE (a b : Junction) : Prop := a.key ≤ b.key

/-- The comparator `a.get_mate2() < b.get_mate2()` induces this sortedness order. -/
def mate2LE (a b : Junction) : Prop := a.mate2.key ≤ b.mate2.key

/-- Modelled from the spec: clusters are finally ordered by their first/lead junction;
`Cluster::operator<` is declared outside the analyzed sources. -/
def clusterLE (a b : List Junction) : Prop := a.headI.key ≤ b.headI.key

instance : DecidableRel junctionLE :=
  fun a b => inferInstanceAs (Decidable (a.key ≤ b.key))

instance : DecidableRel mate2LE :=
  fun a b => inferInstanceAs (Decidable (a.mate2.key ≤ b.mate2.key))

instance : DecidableRel clusterLE :=
  fun a b => inferInstanceAs (Decidable (a.headI.key ≤ b.headI.key))

instance : IsTotal Junction junctionLE := ⟨fun a b => le_total a.key b.key⟩

instance : IsTrans Junction junctionLE := ⟨fun _ _ _ h h' => le_trans h h'⟩

instance : IsTotal Junction mate2LE := ⟨fun a b => le_total a.mate2.key b.mate2.key⟩

instance : IsTrans Junction mate2LE := ⟨fun _ _ _ h h' => le_trans h h'⟩

instance : IsTotal (List Junction) clusterLE := ⟨fun a b => le_total a.headI.key b.headI.key⟩

instance : IsTrans (List Junction) clusterLE := ⟨fun _ _ _ h h' => le_trans h h'⟩

/-- The sentinel `std::numeric_limits<int>::max()` returned by `junction_distance`
for incompatible junctions. -/
def INT_MAX : Int := 2 ^ 31 - 1

/-- Value of the C++ cast `(int)(n)` for an unsigned 64-bit operand `n`:
truncation to the low 32 bits, read as two's complement. -/
def toInt32 (n : Nat) : Int :=
  if (n % 2 ^ 32 : Nat) < 2 ^ 31 then ((n % 2 ^ 32 : Nat) : Int)
  else ((n % 2 ^ 32 : Nat) : Int) - 2 ^ 32

/-- Value of the C++ subtraction `a - b` on `size_t` (unsigned 64-bit) operands:
wraparound modulo `2 ^ 64`. -/
def size_t_sub (a b : Nat) : Nat := (((a : Int) - (b : Int)) % 2 ^ 64).toNat

/-- The inserted-sequence term of `junction_distance`:
`std::abs((int)(lhs.get_inserted_sequence().size() - rhs.get_inserted_sequence().size()))`.
(`std::abs` applied to `INT_MIN` is undefined behaviour; it is modelled here as the
mathematical absolute value `2 ^ 31`.) -/
def ins_size_term (la lb : Nat) : Int := ((toInt32 (size_t_sub la lb)).natAbs : Int)

/-- The guard of `junction_distance`: both mates agree on sequence name and
orientation. -/
def mates_match (lhs rhs : Junction) : Prop :=
  lhs.mate1.seq_name = rhs.mate1.seq_name ∧ lhs.mate1.orientation = rhs.mate1.orientation ∧
  lhs.mate2.seq_name = rhs.mate2.seq_name ∧ lhs.mate2.orientation = rhs.mate2.orientation

instance (l r : Junction) : Decidable (mates_match l r) := by
  unfold mates_match; infer_instance

/-- `junction_distance` from the source: Manhattan-style combination of the positional
offsets at both mates plus the (32-bit truncated) absolute difference of the
inserted-sequence lengths, or `INT_MAX` when the mates do not match. -/
def junction_distance (lhs rhs : Junction) : Int :=
  if mates_match lhs rhs then
    ((lhs.mate1.position - rhs.mate1.position).natAbs : Int) +
    ((lhs.mate2.position - rhs.mate2.position).natAbs : Int) +
    ins_size_term lhs.inserted_sequence.length rhs.inserted_sequence.length
  else INT_MAX

theorem mates_match_symm {a b : Junction} (h : mates_match a b) : mates_match b a := by
  obtain ⟨h1, h2, h3, h4⟩ := h
  exact ⟨h1.symm, h2.symm, h3.symm, h4.symm⟩

theorem ins_size_term_comm (la lb : Nat) : ins_size_term la lb = ins_size_term lb la := by
  unfold ins_size_term toInt32 size_t_sub
  split <;> split <;> omega

theorem ins_size_term_self (l : Nat) : ins_size_term l l = 0 := by
  unfold ins_size_term toInt32 size_t_sub
  split <;> omega

theorem ins_size_term_nonneg (la lb : Nat) : 0 ≤ ins_size_term la lb := by
  unfold ins_size_term; positivity

theorem ins_size_term_eq_of_small (la lb : Nat)
    (h : ((la : Int) - (lb : Int)).natAbs < 2 ^ 31) :
    ins_size_term la lb = (((la : Int) - (lb : Int)).natAbs : Int) := by
  unfold ins_size_term toInt32 size_t_sub
  split <;> omega

/-- C4: `junction_distance` is symmetric and non-negative, and every junction is at
distance zero from itself. -/
theorem junction_distance_symm_nonneg_refl :
    (∀ a b : Junction, junction_distance a b = junction_distance b a) ∧
    (∀ a b : Junction, 0 ≤ junction_distance a b) ∧
    (∀ a : Junction, junction_distance a a = 0) := by
  refine ⟨fun a b => ?_, fun a b => ?_, fun a => ?_⟩
  · by_cases h : mates_match a b
    · rw [junction_distance, junction_distance, if_pos h, if_pos (mates_match_symm h),
        ins_size_term_comm]
      have h1 : (a.mate1.position - b.mate1.position).natAbs
          = (b.mate1.position - a.mate1.position).natAbs := by omega
      have h2 : (a.mate2.position - b.mate2.position).natAbs
          = (b.mate2.position - a.mate2.position).natAbs := by omega
      rw [h1, h2]
    · have h' : ¬ mates_match b a := fun hc => h (mates_match_symm hc)
      rw [junction_distance, junction_distance, if_neg h, if_neg h']
  · rw [junction_distance]
    split
    · have := ins_size_term_nonneg a.inserted_sequence.length b.inserted_sequence.length
      positivity
    · norm_num [INT_MAX]
  · rw [junction_distance, if_pos ⟨rfl, rfl, rfl, rfl⟩, ins_size_term_self]
    simp

/-- Concrete junctions used in witness and counterexample theorems. -/
def jBase : Junction := ⟨⟨"chr1", .forward, 0⟩, ⟨"chr1", .forward, 100⟩, ""⟩

/-- A junction matching `jBase` on both mate signatures but at mate-1 position
`2 ^ 31 - 1`. -/
def jFar : Junction := ⟨⟨"chr1", .forward, 2 ^ 31 - 1⟩, ⟨"chr1", .forward, 100⟩, ""⟩

/-- C3 (counterexample): the INFINITE sentinel is *not* exclusive to mate-signature
mismatches — two junctions whose mates match exactly but whose mate-1 positions differ
by `2 ^ 31 - 1` also get distance `INT_MAX`, refuting the claimed "if and only if". -/
theorem junction_distance_sentinel_not_exclusive :
    mates_match jBase jFar ∧ junction_distance jBase jFar = INT_MAX := by
  constructor
  · exact ⟨rfl, rfl, rfl, rfl⟩
  · rw [junction_distance, if_pos ⟨rfl, rfl, rfl, rfl⟩]
    decide

/-- C3 (amended): `junction_distance` returns `INT_MAX` whenever the two junctions
differ in mate-1 or mate-2 sequence name or orientation; when both mates match it
returns the sum of the absolute mate-position offsets plus the 32-bit-truncated
absolute difference of the inserted-sequence lengths (the exact length difference
whenever that difference is below `2 ^ 31`, by C10).  The sentinel value can coincide
with a genuine distance of `2 ^ 31 - 1`, so it is not exclusive to mismatches. -/
theorem junction_distance_characterization (a b : Junction) :
    (¬ mates_match a b → junction_distance a b = INT_MAX) ∧
    (mates_match a b → junction_distance a b =
      ((a.mate1.position - b.mate1.position).natAbs : Int) +
      ((a.mate2.position - b.mate2.position).natAbs : Int) +
      ins_size_term a.inserted_sequence.length b.inserted_sequence.length) := by
  constructor
  · intro h; rw [junction_distance, if_neg h]
  · intro h; rw [junction_distance, if_pos h]

/-- Witness for C3 (amended), applying it at concrete junctions. -/
theorem junction_distance_characterization_witness :
    junction_distance jBase jFar =
      ((jBase.mate1.position - jFar.mate1.position).natAbs : Int) +
      ((jBase.mate2.position - jFar.mate2.position).natAbs : Int) +
      ins_size_term jBase.inserted_sequence.length jFar.inserted_sequence.length :=
  (junction_distance_characterization jBase jFar).2 (by decide)

/-- C10: for junctions whose mates match and whose inserted-sequence lengths differ
by less than `2 ^ 31`, the inserted-sequence term — computed in the source by unsigned
64-bit subtraction followed by truncation to a 32-bit signed int and `std::abs` —
equals the exact absolute difference of the two lengths, so the distance realizes the
spec's formula exactly. -/
theorem junction_distance_exact_under_bound (a b : Junction) (h : mates_match a b)
    (hlen : ((a.inserted_sequence.length : Int) - (b.inserted_sequence.length : Int)).natAbs
      < 2 ^ 31) :
    junction_distance a b =
      ((a.mate1.position - b.mate1.position).natAbs : Int) +
      ((a.mate2.position - b.mate2.position).natAbs : Int) +
      (((a.inserted_sequence.length : Int) - (b.inserted_sequence.length : Int)).natAbs : Int) := by
  rw [junction_distance, if_pos h, ins_size_term_eq_of_small _ _ hlen]

/-- A junction with a 2-base insertion, for the C10 witness. -/
def jIns2 : Junction := ⟨⟨"chr1", .forward, 0⟩, ⟨"chr1", .forward, 100⟩, "AC"⟩

/-- A junction with a 5-base insertion one and two positions away, for the C10
witness (the worked example in the source comment). -/
def jIns5 : Junction := ⟨⟨"chr1", .forward, 1⟩, ⟨"chr1", .forward, 102⟩, "ACGTA"⟩

/-- Witness for C10 at the source comment's worked example
(distance `1 + 2 + 3 = 6`). -/
theorem junction_distance_exact_under_bound_witness :
    mates_match jIns2 jIns5 ∧
    ((jIns2.inserted_sequence.length : Int) - (jIns5.inserted_sequence.length : Int)).natAbs
      < 2 ^ 31 ∧
    junction_distance jIns2 jIns5 = 6 :=
  ⟨by decide, by decide,
    (junction_distance_exact_under_bound jIns2 jIns5 (by decide) (by decide)).trans (by decide)⟩

/-- Split condition of pass 1 in `partition_junctions` (lines 25-27): a new mate-1
group starts when the sequence name or orientation differs from the group's last
element or the mate-1 positions are more than 50 apart. -/
def newGroup1 (junction back : Junction) : Bool :=
  decide (junction.mate1.seq_name ≠ back.mate1.seq_name ∨
    junction.mate1.orientation ≠ back.mate1.orientation ∨
    50 < (junction.mate1.position - back.mate1.position).natAbs)

/-- Split condition of `split_partition_based_on_mate2` (lines 70-72): same as
`newGroup1` but on mate 2. -/
def newGroup2 (junction back : Junction) : Bool :=
  decide (junction.mate2.seq_name ≠ back.mate2.seq_name ∨
    junction.mate2.orientation ≠ back.mate2.orientation ∨
    50 < (junction.mate2.position - back.mate2.position).natAbs)

/-- One iteration of the greedy streaming-split loop shared by `partition_junctions`
and `split_partition_based_on_mate2`: push the element onto the running group, first
flushing the group into the output when the element is incompatible with the group's
last element. -/
def greedyStep (newGroup : α → α → Bool) (flush : List α → List (List α))
    (st : List α × List (List α)) (x : α) : List α × List (List α) :=
  match st.1.getLast? with
  | none => ([x], st.2)
  | some back =>
    if newGroup x back then ([x], st.2 ++ flush st.1) else (st.1 ++ [x], st.2)

/-- Epilogue of the greedy streaming-split loop: flush the final non-empty running
group into the output. -/
def greedyFinish (flush : List α → List (List α)) (st : List α × List (List α)) :
    List (List α) :=
  match st.1.getLast? with
  | none => st.2
  | some _ => st.2 ++ flush st.1

/-- The greedy streaming-split loop: walk the input, grow the running group while
elements stay compatible with its last element, flush it otherwise and at the end. -/
def greedySplit (newGroup : α → α → Bool) (flush : List α → List (List α))
    (xs : List α) : List (List α) :=
  greedyFinish flush (xs.foldl (greedyStep newGroup flush) ([], []))

/-- `split_partition_based_on_mate2` from the source: greedy split on mate-2
compatibility; each flushed group is sorted by the full junction order. -/
def split_partition_based_on_mate2 (partition : List Junction) : List (List Junction) :=
  greedySplit newGroup2 (fun cur => [List.insertionSort junctionLE cur]) partition

/-- `partition_junctions` from the source: greedy split on mate-1 compatibility; each
flushed mate-1 group is sorted by mate 2 and split again by mate-2 compatibility. -/
def partition_junctions (junctions : List Junction) : List (List Junction) :=
  greedySplit newGroup1
    (fun cur => split_partition_based_on_mate2 (List.insertionSort mate2LE cur)) junctions


theorem greedyStep_flatten_perm (newGroup : α → α → Bool) {flush : List α → List (List α)}
    (hflush : ∀ p, (flush p).flatten.Perm p) (st : List α × List (List α)) (x : α) :
    ((greedyStep newGroup flush st x).2.flatten ++ (greedyStep newGroup flush st x).1).Perm
      ((st.2.flatten ++ st.1) ++ [x]) := by
  cases hlast : st.1.getLast? with
  | none =>
    have h1 : st.1 = [] := List.getLast?_eq_none_iff.mp hlast
    simp [greedyStep, hlast, h1]
  | some back =>
    by_cases hng : newGroup x back = true
    · simp only [greedyStep, hlast, hng, if_true]
      rw [List.flatten_append]
      exact ((hflush st.1).append_left st.2.flatten).append_right [x]
    · simp only [greedyStep, hlast]
      rw [if_neg hng]
      simp [List.append_assoc]

theorem foldl_greedyStep_perm (newGroup : α → α → Bool) {flush : List α → List (List α)}
    (hflush : ∀ p, (flush p).flatten.Perm p) :
    ∀ (xs : List α) (st : List α × List (List α)),
      ((xs.foldl (greedyStep newGroup flush) st).2.flatten
        ++ (xs.foldl (greedyStep newGroup flush) st).1).Perm
      ((st.2.flatten ++ st.1) ++ xs) := by
  intro xs
  induction xs with
  | nil => intro st; simp
  | cons x xs ih =>
    intro st
    rw [List.foldl_cons]
    refine (ih (greedyStep newGroup flush st x)).trans ?_
    refine ((greedyStep_flatten_perm newGroup hflush st x).append_right xs).trans ?_
    rw [List.append_assoc]
    exact List.Perm.refl _

theorem greedyFinish_flatten_perm {flush : List α → List (List α)}
    (hflush : ∀ p, (flush p).flatten.Perm p) (st : List α × List (List α)) :
    (greedyFinish flush st).flatten.Perm (st.2.flatten ++ st.1) := by
  cases hlast : st.1.getLast? with
  | none =>
    have h1 : st.1 = [] := List.getLast?_eq_none_iff.mp hlast
    simp [greedyFinish, hlast, h1]
  | some back =>
    simp only [greedyFinish, hlast]
    rw [List.flatten_append]
    exact (hflush st.1).append_left st.2.flatten

/-- The greedy split neither drops nor duplicates elements, provided each flush is a
permutation of the flushed group. -/
theorem greedySplit_flatten_perm (newGroup : α → α → Bool) {flush : List α → List (List α)}
    (hflush : ∀ p, (flush p).flatten.Perm p) (xs : List α) :
    (greedySplit newGroup flush xs).flatten.Perm xs := by
  rw [greedySplit]
  refine (greedyFinish_flatten_perm hflush _).trans ?_
  have h := foldl_greedyStep_perm newGroup hflush xs ([], [])
  simpa using h

theorem split2_flatten_perm (p : List Junction) :
    (split_partition_based_on_mate2 p).flatten.Perm p := by
  refine greedySplit_flatten_perm newGroup2 (fun q => ?_) p
  simpa using (List.perm_insertionSort junctionLE q)

/-- C1: the multiset union of all partitions returned by `partition_junctions` equals
the input multiset — partitioning alone neither duplicates nor drops any junction. -/
theorem partition_junctions_flatten_perm (junctions : List Junction) :
    (partition_junctions junctions).flatten.Perm junctions := by
  refine greedySplit_flatten_perm newGroup1 (fun p => ?_) junctions
  exact (split2_flatten_perm _).trans (List.perm_insertionSort mate2LE p)

/-- Two positions within the 50 bp partition tolerance of each other. -/
def delta50 (x y : Int) : Prop := (y - x).natAbs ≤ 50

instance : DecidableRel delta50 :=
  fun x y => inferInstanceAs (Decidable ((y - x).natAbs ≤ 50))

/-- All ways of inserting `x` into a list (helper for a computable permutation
enumeration). -/
def insertAll (x : α) : List α → List (List α)
  | [] => [[x]]
  | y :: ys => (x :: y :: ys) :: (insertAll x ys).map (fun zs => y :: zs)

/-- Structural enumeration of all permutations of a list. -/
def perms : List α → List (List α)
  | [] => [[]]
  | x :: xs => (perms xs).flatMap (insertAll x)

theorem perm_of_mem_insertAll (x : α) :
    ∀ {zs qs : List α}, qs ∈ insertAll x zs → qs.Perm (x :: zs) := by
  intro zs
  induction zs with
  | nil =>
    intro qs hqs
    simp only [insertAll, List.mem_singleton] at hqs
    rw [hqs]
  | cons y ys ih =>
    intro qs hqs
    rcases List.mem_cons.mp hqs with h | h
    · rw [h]
    · obtain ⟨qs', hqs', rfl⟩ := List.mem_map.mp h
      exact ((ih hqs').cons y).trans (List.Perm.swap x y ys)

theorem mem_insertAll_split (x : α) :
    ∀ (l₁ l₂ : List α), (l₁ ++ x :: l₂) ∈ insertAll x (l₁ ++ l₂) := by
  intro l₁
  induction l₁ with
  | nil =>
    intro l₂
    cases l₂ with
    | nil => simp [insertAll]
    | cons y ys => simp [insertAll]
  | cons a l₁ ih =>
    intro l₂
    rw [List.cons_append, List.cons_append, insertAll]
    exact List.mem_cons_of_mem _ (List.mem_map_of_mem _ (ih l₂))

theorem mem_perms_iff_perm : ∀ {ps qs : List α}, qs ∈ perms ps ↔ qs.Perm ps := by
  intro ps
  induction ps with
  | nil =>
    intro qs
    rw [perms]
    constructor
    · intro h; rw [List.mem_singleton.mp h]
    · intro h; rw [List.mem_singleton, ← List.length_eq_zero]
      exact h.length_eq
  | cons x xs ih =>
    intro qs
    rw [perms, List.mem_flatMap]
    constructor
    · rintro ⟨zs, hzs, hmem⟩
      exact (perm_of_mem_insertAll x hmem).trans ((ih.mp hzs).cons x)
    · intro hperm
      have hx : x ∈ qs := hperm.mem_iff.mpr (List.mem_cons_self x xs)
      obtain ⟨l₁, l₂, rfl⟩ := List.append_of_mem hx
      have h1 : (l₁ ++ l₂).Perm xs :=
        (List.perm_middle.symm.trans hperm).cons_inv
      exact ⟨l₁ ++ l₂, ih.mpr h1, mem_insertAll_split x l₁ l₂⟩

/-- A list of positions that can be rearranged into a chain whose successive deltas
are each at most 50 base pairs. -/
def ChainArrangeable (ps : List Int) : Prop :=
  ∃ qs : List Int, qs.Perm ps ∧ List.Chain' delta50 qs

/-- Executable check that successive deltas in a position list are at most 50. -/
def chain50 : List Int → Bool
  | [] => true
  | [_] => true
  | x :: y :: rest => (decide (delta50 x y) && chain50 (y :: rest))

theorem chain50_iff : ∀ {l : List Int}, chain50 l = true ↔ List.Chain' delta50 l
  | [] => by simp [chain50]
  | [x] => by simp [chain50]
  | x :: y :: rest => by
    rw [chain50, Bool.and_eq_true, List.chain'_cons]
    constructor
    · rintro ⟨h1, h2⟩
      exact ⟨of_decide_eq_true h1, chain50_iff.mp h2⟩
    · rintro ⟨h1, h2⟩
      exact ⟨decide_eq_true h1, chain50_iff.mpr h2⟩

instance (ps : List Int) : Decidable (ChainArrangeable ps) :=
  decidable_of_iff ((perms ps).any chain50) (by
    rw [List.any_eq_true]
    constructor
    · rintro ⟨qs, hmem, hchain⟩
      exact ⟨qs, mem_perms_iff_perm.mp hmem, chain50_iff.mp hchain⟩
    · rintro ⟨qs, hperm, hchain⟩
      exact ⟨qs, mem_perms_iff_perm.mpr hperm, chain50_iff.mpr hchain⟩)

/-- A group produced by the greedy split: flushed from a non-empty run, drawn from
`S`, whose consecutive elements never trigger the split condition. -/
def GoodGroup (newGroup : α → α → Bool) (flush : List α → List (List α)) (S : List α)
    (G : List α) : Prop :=
  ∃ run, run ≠ [] ∧ List.Chain' (fun a b => newGroup b a = false) run ∧
    (∀ a ∈ run, a ∈ S) ∧ G ∈ flush run

theorem greedyStep_groups (newGroup : α → α → Bool) (flush : List α → List (List α))
    (S : List α) (st : List α × List (List α)) (x : α)
    (hchain : List.Chain' (fun a b => newGroup b a = false) st.1)
    (hsub : ∀ a ∈ st.1, a ∈ S) (hx : x ∈ S)
    (hout : ∀ G ∈ st.2, GoodGroup newGroup flush S G) :
    List.Chain' (fun a b => newGroup b a = false) (greedyStep newGroup flush st x).1 ∧
    (∀ a ∈ (greedyStep newGroup flush st x).1, a ∈ S) ∧
    (∀ G ∈ (greedyStep newGroup flush st x).2, GoodGroup newGroup flush S G) := by
  cases hlast : st.1.getLast? with
  | none =>
    simp only [greedyStep, hlast]
    exact ⟨List.chain'_singleton x, by simpa using hx, hout⟩
  | some back =>
    have hne : st.1 ≠ [] := by
      intro h; rw [h] at hlast; simp at hlast
    by_cases hng : newGroup x back = true
    · simp only [greedyStep, hlast, hng, if_true]
      refine ⟨List.chain'_singleton x, by simpa using hx, ?_⟩
      intro G hG
      rcases List.mem_append.mp hG with h | h
      · exact hout G h
      · exact ⟨st.1, hne, hchain, hsub, h⟩
    · simp only [greedyStep, hlast]
      rw [if_neg hng]
      refine ⟨?_, ?_, hout⟩
      · rw [List.chain'_append]
        refine ⟨hchain, List.chain'_singleton x, ?_⟩
        intro y hy z hz
        have hyb : y = back := by
          rw [hlast] at hy
          exact (Option.mem_some_iff.mp hy).symm
        have hzx : z = x := by
          simp only [List.head?_cons, Option.mem_some_iff] at hz
          exact hz.symm
        rw [hyb, hzx]
        exact Bool.eq_false_iff.mpr hng
      · intro a ha
        rcases List.mem_append.mp ha with h | h
        · exact hsub a h
        · rw [List.mem_singleton.mp h]; exact hx

theorem foldl_greedyStep_groups (newGroup : α → α → Bool) (flush : List α → List (List α))
    (S : List α) :
    ∀ (xs : List α) (st : List α × List (List α)), (∀ a ∈ xs, a ∈ S) →
      List.Chain' (fun a b => newGroup b a = false) st.1 → (∀ a ∈ st.1, a ∈ S) →
      (∀ G ∈ st.2, GoodGroup newGroup flush S G) →
      List.Chain' (fun a b => newGroup b a = false)
        (xs.foldl (greedyStep newGroup flush) st).1 ∧
      (∀ a ∈ (xs.foldl (greedyStep newGroup flush) st).1, a ∈ S) ∧
      (∀ G ∈ (xs.foldl (greedyStep newGroup flush) st).2, GoodGroup newGroup flush S G) := by
  intro xs
  induction xs with
  | nil => intro st _ h1 h2 h3; exact ⟨h1, h2, h3⟩
  | cons x xs ih =>
    intro st hxs h1 h2 h3
    rw [List.foldl_cons]
    have hstep := greedyStep_groups newGroup flush S st x h1 h2
      (hxs x (List.mem_cons_self x xs)) h3
    exact ih _ (fun a ha => hxs a (List.mem_cons_of_mem x ha)) hstep.1 hstep.2.1 hstep.2.2

/-- Every group emitted by the greedy split comes from flushing a non-empty run of
input elements whose consecutive elements were compatible. -/
theorem greedySplit_groups (newGroup : α → α → Bool) (flush : List α → List (List α))
    (xs : List α) : ∀ G ∈ greedySplit newGroup flush xs, GoodGroup newGroup flush xs G := by
  intro G hG
  have hfold := foldl_greedyStep_groups newGroup flush xs xs ([], []) (fun a ha => ha)
    List.chain'_nil (by simp) (by simp)
  rw [greedySplit, greedyFinish] at hG
  cases hlast : (xs.foldl (greedyStep newGroup flush) ([], [])).1.getLast? with
  | none =>
    simp only [hlast] at hG
    exact hfold.2.2 G hG
  | some back =>
    simp only [hlast] at hG
    rcases List.mem_append.mp hG with h | h
    · exact hfold.2.2 G h
    · refine ⟨_, ?_, hfold.1, hfold.2.1, h⟩
      intro hnil
      rw [hnil] at hlast
      simp at hlast

theorem newGroup1_eq_false {j back : Junction} : newGroup1 j back = false ↔
    j.mate1.seq_name = back.mate1.seq_name ∧ j.mate1.orientation = back.mate1.orientation ∧
      (j.mate1.position - back.mate1.position).natAbs ≤ 50 := by
  simp only [newGroup1, decide_eq_false_iff_not, not_or, not_lt, ne_eq, not_not]

theorem newGroup2_eq_false {j back : Junction} : newGroup2 j back = false ↔
    j.mate2.seq_name = back.mate2.seq_name ∧ j.mate2.orientation = back.mate2.orientation ∧
      (j.mate2.position - back.mate2.position).natAbs ≤ 50 := by
  simp only [newGroup2, decide_eq_false_iff_not, not_or, not_lt, ne_eq, not_not]

theorem chain'_all_rel {r : α → α → Prop} (hrefl : ∀ a, r a a)
    (hsymm : ∀ a b, r a b → r b a) (htrans : ∀ a b c, r a b → r b c → r a c)
    {l : List α} (h : List.Chain' r l) : ∀ a ∈ l, ∀ b ∈ l, r a b := by
  have ht : IsTrans α r := ⟨htrans⟩
  have hp := (@List.chain'_iff_pairwise _ _ ht _).mp h
  intro a ha b hb
  by_cases hab : a = b
  · rw [hab]; exact hrefl b
  · exact hp.forall (fun x y hxy => hsymm x y hxy) ha hb hab

/-- Pairwise mate-1 signature agreement. -/
def mate1SigAgree (a b : Junction) : Prop :=
  a.mate1.seq_name = b.mate1.seq_name ∧ a.mate1.orientation = b.mate1.orientation

/-- Pairwise mate-2 signature agreement. -/
def mate2SigAgree (a b : Junction) : Prop :=
  a.mate2.seq_name = b.mate2.seq_name ∧ a.mate2.orientation = b.mate2.orientation

/-- Structure of the partitions: each one is the sort of a mate-2-compatible run
drawn from a mate-1-compatible run of the input. -/
theorem partition_junctions_structure (js : List Junction) :
    ∀ P ∈ partition_junctions js, ∃ run1 run2 : List Junction,
      List.Chain' (fun a b => newGroup1 b a = false) run1 ∧
      List.Chain' (fun a b => newGroup2 b a = false) run2 ∧
      (∀ a ∈ run2, a ∈ run1) ∧ run2 ≠ [] ∧
      P = List.insertionSort junctionLE run2 := by
  intro P hP
  obtain ⟨run1, hne1, hch1, hsub1, hmem1⟩ := greedySplit_groups newGroup1 _ js P hP
  obtain ⟨run2, hne2, hch2, hsub2, hmem2⟩ := greedySplit_groups newGroup2 _ _ P hmem1
  refine ⟨run1, run2, hch1, hch2, ?_, hne2, List.mem_singleton.mp hmem2⟩
  intro a ha
  exact (List.perm_insertionSort mate2LE run1).mem_iff.mp (hsub2 a ha)

/-- C2 (amended): within any partition emitted by `partition_junctions`, all pairs of
junctions agree on mate-1 and mate-2 sequence name and orientation; the mate-2
positions of the partition's members can be arranged into a chain with successive
deltas of at most 50; the mate-1 positions are chain-linked only through the
*enclosing mate-1 run of the input*, which may pass through junctions that end up in
other partitions, so the partition's own mate-1 positions need not admit such a chain
(see the counterexample). -/
theorem partition_cohesion (js : List Junction) :
    ∀ P ∈ partition_junctions js,
      (∀ a ∈ P, ∀ b ∈ P,
        a.mate1.seq_name = b.mate1.seq_name ∧ a.mate1.orientation = b.mate1.orientation ∧
        a.mate2.seq_name = b.mate2.seq_name ∧ a.mate2.orientation = b.mate2.orientation) ∧
      ChainArrangeable (P.map fun j => j.mate2.position) ∧
      (∃ run : List Junction, (∀ a ∈ P, a ∈ run) ∧
        List.Chain' delta50 (run.map fun j => j.mate1.position)) := by
  intro P hP
  obtain ⟨run1, run2, hch1, hch2, hsub, hne2, hPeq⟩ := partition_junctions_structure js P hP
  have hPperm : P.Perm run2 := hPeq ▸ List.perm_insertionSort junctionLE run2
  have hmemP : ∀ a ∈ P, a ∈ run2 := fun a ha => hPperm.mem_iff.mp ha
  have hsig1 : ∀ a ∈ run1, ∀ b ∈ run1, mate1SigAgree a b :=
    chain'_all_rel (fun a => ⟨rfl, rfl⟩) (fun a b h => ⟨h.1.symm, h.2.symm⟩)
      (fun a b c h h' => ⟨h.1.trans h'.1, h.2.trans h'.2⟩)
      (hch1.imp fun a b hab =>
        ⟨(newGroup1_eq_false.mp hab).1.symm, (newGroup1_eq_false.mp hab).2.1.symm⟩)
  have hsig2 : ∀ a ∈ run2, ∀ b ∈ run2, mate2SigAgree a b :=
    chain'_all_rel (fun a => ⟨rfl, rfl⟩) (fun a b h => ⟨h.1.symm, h.2.symm⟩)
      (fun a b c h h' => ⟨h.1.trans h'.1, h.2.trans h'.2⟩)
      (hch2.imp fun a b hab =>
        ⟨(newGroup2_eq_false.mp hab).1.symm, (newGroup2_eq_false.mp hab).2.1.symm⟩)
  refine ⟨?_, ?_, ?_⟩
  · intro a ha b hb
    have h1 := hsig1 a (hsub a (hmemP a ha)) b (hsub b (hmemP b hb))
    have h2 := hsig2 a (hmemP a ha) b (hmemP b hb)
    exact ⟨h1.1, h1.2, h2.1, h2.2⟩
  · refine ⟨run2.map fun j => j.mate2.position, hPperm.symm.map _, ?_⟩
    rw [List.chain'_map]
    exact hch2.imp fun a b hab => (newGroup2_eq_false.mp hab).2.2
  · refine ⟨run1, fun a ha => hsub a (hmemP a ha), ?_⟩
    rw [List.chain'_map]
    exact hch1.imp fun a b hab => (newGroup1_eq_false.mp hab).2.2

/-- First junction of the C2 counterexample: mate-1 position 0, mate-2 position 0. -/
def jc1 : Junction := ⟨⟨"chr1", .forward, 0⟩, ⟨"chr1", .forward, 0⟩, ""⟩

/-- Second junction of the C2 counterexample: mate-1 position 40 (within 50 of both
neighbours), mate-2 position 1000 (far away on mate 2). -/
def jc2 : Junction := ⟨⟨"chr1", .forward, 40⟩, ⟨"chr1", .forward, 1000⟩, ""⟩

/-- Third junction of the C2 counterexample: mate-1 position 80, mate-2 position 0. -/
def jc3 : Junction := ⟨⟨"chr1", .forward, 80⟩, ⟨"chr1", .forward, 0⟩, ""⟩

/-- The C2 counterexample input: one mate-1 run (deltas 40, 40), split on mate 2. -/
def exC2 : List Junction := [jc1, jc2, jc3]

/-- C2 (counterexample): the claim as stated fails — on `exC2` the partition
`[jc1, jc3]` is emitted, whose mate-1 positions 0 and 80 admit no within-partition
chain with successive deltas of at most 50; the junction at mate-1 position 40 that
linked them lands in a different partition because its mate-2 position is 1000. -/
theorem partition_cohesion_counterexample :
    ¬ ∀ P ∈ partition_junctions exC2,
        (∀ a ∈ P, ∀ b ∈ P,
          a.mate1.seq_name = b.mate1.seq_name ∧ a.mate1.orientation = b.mate1.orientation ∧
          a.mate2.seq_name = b.mate2.seq_name ∧ a.mate2.orientation = b.mate2.orientation) ∧
        ChainArrangeable (P.map fun j => j.mate1.position) ∧
        ChainArrangeable (P.map fun j => j.mate2.position) := by decide

/-- Witness for C2 (amended), applying it to the concrete partition `[jc1, jc3]`. -/
theorem partition_cohesion_witness :
    [jc1, jc3] ∈ partition_junctions exC2 ∧
    ChainArrangeable ([jc1, jc3].map fun j => j.mate2.position) :=
  ⟨by decide, (partition_cohesion exC2 [jc1, jc3] (by decide)).2.1⟩

/-- Modelled from the spec: average linkage distance between two clusters of junction
indices — the mean of all cross-pair distances (the linkage library `fastcluster` is
not among the analyzed sources). -/
def pairAvg (d : Nat → Nat → ℚ) (c1 c2 : List Nat) : ℚ :=
  ((c1.map fun i => (c2.map fun j => d i j).sum).sum) / ((c1.length : ℚ) * (c2.length : ℚ))

/-- All index pairs `(i, j)` with `i < j < n`, in the canonical enumeration order of
the source's condensed distance matrix (`i` outer, `j` inner). -/
def allPairs (n : Nat) : List (Nat × Nat) :=
  (List.range n).flatMap fun i => (List.range n).filterMap fun j =>
    if i < j then some (i, j) else none

theorem mem_allPairs {n i j : Nat} : (i, j) ∈ allPairs n ↔ i < j ∧ j < n := by
  simp only [allPairs, List.mem_flatMap, List.mem_filterMap, List.mem_range]
  constructor
  · rintro ⟨a, ha, b, hb, hab⟩
    split at hab
    · obtain ⟨rfl, rfl⟩ := Prod.mk.injEq i j a b ▸ (Option.some_inj.mp hab).symm
      exact ⟨by assumption, hb⟩
    · exact absurd hab (by simp)
  · rintro ⟨hij, hjn⟩
    exact ⟨i, lt_trans hij hjn, j, hjn, by rw [if_pos hij]⟩

/-- Modelled from the spec: the two closest clusters under average linkage, ties
broken by the canonical enumeration order ("ties broken by the implementation's
natural traversal order … must remain deterministic"). -/
def minMergePair (d : Nat → Nat → ℚ) (cs : List (List Nat)) : Option (Nat × Nat) :=
  (allPairs cs.length).argmin fun p => pairAvg d (cs.getD p.1 []) (cs.getD p.2 [])

/-- Remove the first occurrence of a cluster from the state list. -/
def eraseGroup : List (List Nat) → List Nat → List (List Nat)
  | [], _ => []
  | g :: gs, tgt => if g = tgt then gs else g :: eraseGroup gs tgt

theorem perm_cons_eraseGroup : ∀ {l : List (List Nat)} {a : List Nat}, a ∈ l →
    l.Perm (a :: eraseGroup l a)
  | g :: gs, a, h => by
    rw [eraseGroup]
    split
    · rename_i heq
      rw [heq]
    · rename_i hne
      have hmem : a ∈ gs := by
        rcases List.mem_cons.mp h with h' | h'
        · exact absurd h'.symm hne
        · exact h'
      exact ((perm_cons_eraseGroup hmem).cons g).trans (List.Perm.swap a g _)

theorem mem_eraseGroup_of_ne : ∀ {l : List (List Nat)} {a b : List Nat}, a ∈ l →
    a ≠ b → a ∈ eraseGroup l b
  | g :: gs, a, b, h, hne => by
    rw [eraseGroup]
    split
    · rename_i heq
      rcases List.mem_cons.mp h with h' | h'
      · exact absurd (h'.trans heq) hne
      · exact h'
    · rcases List.mem_cons.mp h with h' | h'
      · rw [h']; exact List.mem_cons_self _ _
      · exact List.mem_cons_of_mem _ (mem_eraseGroup_of_ne h' hne)

theorem eraseGroup_sublist : ∀ (l : List (List Nat)) (a : List Nat),
    (eraseGroup l a).Sublist l
  | [], _ => List.Sublist.refl _
  | g :: gs, a => by
    rw [eraseGroup]
    split
    · exact List.sublist_cons_self g gs
    · exact (eraseGroup_sublist gs a).cons₂ g

theorem length_eraseGroup_le : ∀ (l : List (List Nat)) (a : List Nat),
    (eraseGroup l a).length ≤ l.length :=
  fun l a => (eraseGroup_sublist l a).length_le

theorem length_eraseGroup_of_mem : ∀ {l : List (List Nat)} {a : List Nat}, a ∈ l →
    (eraseGroup l a).length = l.length - 1
  | g :: gs, a, h => by
    rw [eraseGroup]
    split
    · simp
    · rename_i hne
      have hmem : a ∈ gs := by
        rcases List.mem_cons.mp h with h' | h'
        · exact absurd h'.symm hne
        · exact h'
      have hpos : 0 < gs.length := List.length_pos.mpr (List.ne_nil_of_mem hmem)
      rw [List.length_cons, List.length_cons, length_eraseGroup_of_mem hmem]
      omega

/-- Modelled from the spec: merge the clusters at positions `i` and `j` of the state
list, appending the merged cluster at the end. -/
def mergeAt (cs : List (List Nat)) (i j : Nat) : List (List Nat) :=
  (eraseGroup (eraseGroup cs (cs.getD i [])) (cs.getD j [])) ++ [cs.getD i [] ++ cs.getD j []]

/-- Modelled from the spec: the agglomerative average-linkage loop — `fuel` merge
steps, each merging the two closest clusters and recording the linkage height, the
dendrogram being the recorded trace. -/
def linkage_trace (d : Nat → Nat → ℚ) : Nat → List (List Nat) → List (ℚ × List (List Nat))
  | 0, _ => []
  | fuel + 1, cs =>
    match minMergePair d cs with
    | none => []
    | some p =>
      (pairAvg d (cs.getD p.1 []) (cs.getD p.2 []), mergeAt cs p.1 p.2) ::
        linkage_trace d fuel (mergeAt cs p.1 p.2)

/-- Modelled from the spec and the source comment ("clustering is stopped at step
with cluster distance >= clustering_cutoff"): walk the merge trace while the linkage
height stays below the cutoff; the flat clusters are the last state reached. -/
def cut_clusters (cutoff : ℚ) (init : List (List Nat)) :
    List (ℚ × List (List Nat)) → List (List Nat)
  | [] => init
  | (h, cs) :: rest => if h < cutoff then cut_clusters cutoff cs rest else init

/-- A valid model of the random engine behind `std::sample`: on a legal request it
returns a subsequence of the partition of exactly the requested size.  The random
draw itself is abstracted as a function parameter. -/
def ValidDraw (draw : List Junction → Nat → List Junction) : Prop :=
  ∀ p k, k ≤ p.length → (draw p k).length = k ∧ (draw p k).Sublist p

/-- `subsample_partition` from the source; `none` models the fatal
`assert(partition.size() >= sample_size)` firing. -/
def subsample_partition (draw : List Junction → Nat → List Junction)
    (partition : List Junction) (sample_size : Nat) : Option (List Junction) :=
  if sample_size ≤ partition.length then some (draw partition sample_size) else none

/-- C7: `subsample_partition` hits its fatal assertion exactly when the requested
sample size strictly exceeds the partition size; under the precondition
`sample_size ≤ |partition|` the assertion never fires and a sample is returned. -/
theorem subsample_partition_assertion (draw : List Junction → Nat → List Junction)
    (partition : List Junction) (sample_size : Nat) :
    subsample_partition draw partition sample_size = none ↔
      partition.length < sample_size := by
  unfold subsample_partition
  split <;> simp <;> omega

/-- The deterministic stand-in for the random engine used in witnesses: take the
first `k` junctions. -/
def takeDraw : List Junction → Nat → List Junction := fun p k => p.take k

theorem takeDraw_valid : ValidDraw takeDraw := by
  intro p k hk
  constructor
  · rw [takeDraw, List.length_take]
    omega
  · exact List.take_sublist k p

/-- Witness for C7: requesting 2 of 1 junction aborts. -/
theorem subsample_partition_assertion_witness :
    subsample_partition takeDraw [jBase] 2 = none :=
  (subsample_partition_assertion takeDraw [jBase] 2).mpr (by decide)

/-- The working set of a partition: the partition itself, or — when it exceeds the
ceiling of 200 (`max_partition_size`) — the subsample drawn from it. -/
def working_set (draw : List Junction → Nat → List Junction)
    (partition : List Junction) : List Junction :=
  if 200 < partition.length then (subsample_partition draw partition 200).getD []
  else partition

/-- The entries of the condensed distance matrix, as a function of the two indices
(`distmat[k] = junction_distance(partition[i], partition[j])`, converted to the
floating-point type of the linkage library, modelled exactly as `ℚ`). -/
def partition_dist (working : List Junction) (i j : Nat) : ℚ :=
  ((junction_distance (working.getD i default) (working.getD j default) : Int) : ℚ)

/-- Modelled from the spec: the initial linkage state — one singleton cluster per
junction index. -/
def init_state (n : Nat) : List (List Nat) :=
  (List.range n).map fun i => [i]

/-- The flat clusters of one working set: run the average-linkage loop and cut the
trace at the cutoff. -/
def cluster_groups (clustering_cutoff : ℚ) (working : List Junction) : List (List Nat) :=
  cut_clusters clustering_cutoff (init_state working.length)
    (linkage_trace (partition_dist working) (working.length - 1) (init_state working.length))

/-- The per-partition body of the clustering loop: partitions of size below 2 become
clusters as-is; oversized partitions are first subsampled to 200 members; the working
set is clustered by average linkage over the pairwise `junction_distance` matrix, the
dendrogram is cut at `clustering_cutoff`, and the label groups are sorted and
emitted. -/
def clusters_of_partition (draw : List Junction → Nat → List Junction)
    (clustering_cutoff : ℚ) (partition : List Junction) : List (List Junction) :=
  if partition.length < 2 then [partition]
  else (cluster_groups clustering_cutoff (working_set draw partition)).map
    fun g => List.insertionSort junctionLE
      (g.filterMap fun i => (working_set draw partition)[i]?)

/-- A subsampling notice written to the debug stream: the partition size and a
representative member (`partition[0]`). -/
structure Diagnostic where
  partition_size : Nat
  representative : Junction
deriving DecidableEq, Repr

/-- The subsampling diagnostics emitted by `hierarchical_clustering_method`: one
notice per partition exceeding the ceiling of 200 junctions. -/
def hierarchical_clustering_diagnostics (junctions : List Junction) : List Diagnostic :=
  (partition_junctions junctions).filterMap fun p =>
    if 200 < p.length then some ⟨p.length, p.headI⟩ else none

/-- `hierarchical_clustering_method` from the source: partition, cluster each
partition, collect all clusters and sort them. -/
def hierarchical_clustering_method (draw : List Junction → Nat → List Junction)
    (junctions : List Junction) (clustering_cutoff : ℚ) : List (List Junction) :=
  List.insertionSort clusterLE
    ((partition_junctions junctions).flatMap (clusters_of_partition draw clustering_cutoff))

/-- Invariant of the linkage state over a working set of size `n`: the clusters hold
the indices `0 … n-1` exactly once altogether, and none is empty. -/
def GoodState (n : Nat) (cs : List (List Nat)) : Prop :=
  cs.flatten.Perm (List.range n) ∧ ∀ g ∈ cs, g ≠ []

theorem minMergePair_lt {d : Nat → Nat → ℚ} {cs : List (List Nat)} {p : Nat × Nat}
    (h : minMergePair d cs = some p) : p.1 < p.2 ∧ p.2 < cs.length := by
  obtain ⟨i, j⟩ := p
  exact mem_allPairs.mp (List.argmin_mem (Option.mem_def.mpr h))

theorem getD_mem_of_lt {cs : List (List Nat)} {i : Nat} (hi : i < cs.length) :
    cs.getD i [] ∈ cs := by
  rw [List.getD_eq_getElem?_getD, List.getElem?_eq_getElem hi]
  exact List.getElem_mem hi

theorem mergeAt_length_le (cs : List (List Nat)) (i j : Nat) (hi : i < cs.length) :
    (mergeAt cs i j).length ≤ cs.length := by
  rw [mergeAt, List.length_append]
  have h1 := length_eraseGroup_of_mem (getD_mem_of_lt hi)
  have h2 := length_eraseGroup_le (eraseGroup cs (cs.getD i [])) (cs.getD j [])
  have h3 : 0 < cs.length := lt_of_le_of_lt (Nat.zero_le i) hi
  simp only [List.length_cons, List.length_nil]
  omega

theorem goodState_perm_decomp {n : Nat} {cs : List (List Nat)} (hgs : GoodState n cs)
    {i j : Nat} (hij : i < j) (hj : j < cs.length) :
    cs.Perm (cs.getD i [] :: cs.getD j [] ::
      eraseGroup (eraseGroup cs (cs.getD i [])) (cs.getD j [])) := by
  have hi : i < cs.length := lt_trans hij hj
  have hmi : cs.getD i [] ∈ cs := getD_mem_of_lt hi
  have hmj : cs.getD j [] ∈ cs := getD_mem_of_lt hj
  have hnd : cs.flatten.Nodup := (hgs.1.nodup_iff).mpr (List.nodup_range n)
  have hdisj := (List.nodup_flatten.mp hnd).2
  have hdisj2 := List.pairwise_iff_getElem.mp hdisj i j hi hj hij
  have hne : cs.getD i [] ≠ cs.getD j [] := by
    intro heq
    obtain ⟨x, hx⟩ := List.exists_mem_of_ne_nil _ (hgs.2 _ hmi)
    have hgi : cs.getD i [] = cs[i] := by
      rw [List.getD_eq_getElem?_getD, List.getElem?_eq_getElem hi]; rfl
    have hgj : cs.getD j [] = cs[j] := by
      rw [List.getD_eq_getElem?_getD, List.getElem?_eq_getElem hj]; rfl
    exact hdisj2 (hgi ▸ hx) (hgj ▸ heq ▸ hx)
  have hmj2 : cs.getD j [] ∈ eraseGroup cs (cs.getD i []) :=
    mem_eraseGroup_of_ne hmj (fun h => hne h.symm)
  exact (perm_cons_eraseGroup hmi).trans
    ((perm_cons_eraseGroup hmj2).cons (cs.getD i []))

theorem mergeAt_goodState {n : Nat} {cs : List (List Nat)} (hgs : GoodState n cs)
    {i j : Nat} (hij : i < j) (hj : j < cs.length) : GoodState n (mergeAt cs i j) := by
  have hdec := goodState_perm_decomp hgs hij hj
  constructor
  · rw [mergeAt, List.flatten_append]
    have h1 : cs.flatten.Perm
        (cs.getD i [] ++ cs.getD j [] ++
          (eraseGroup (eraseGroup cs (cs.getD i [])) (cs.getD j [])).flatten) := by
      have := hdec.flatten
      simpa [List.append_assoc] using this
    refine List.Perm.trans ?_ (h1.symm.trans hgs.1)
    simp only [List.flatten_cons, List.flatten_nil, List.append_nil]
    exact (List.perm_append_comm).trans (by rw [List.append_assoc])
  · intro g hg
    rcases List.mem_append.mp hg with h | h
    · refine hgs.2 g ?_
      exact ((eraseGroup_sublist _ _).trans (eraseGroup_sublist _ _)).mem h
    · rw [List.mem_singleton.mp h]
      have hne : cs.getD i [] ≠ [] :=
        hgs.2 _ (getD_mem_of_lt (lt_trans hij hj))
      exact fun hcon => hne (List.append_eq_nil.mp hcon).1

theorem linkage_trace_goodState {n : Nat} (d : Nat → Nat → ℚ) :
    ∀ (fuel : Nat) (cs : List (List Nat)), GoodState n cs →
      ∀ s ∈ linkage_trace d fuel cs, GoodState n s.2 := by
  intro fuel
  induction fuel with
  | zero => intro cs _ s hs; simp [linkage_trace] at hs
  | succ fuel ih =>
    intro cs hgs s hs
    rw [linkage_trace] at hs
    cases hmp : minMergePair d cs with
    | none => rw [hmp] at hs; simp at hs
    | some p =>
      rw [hmp] at hs
      obtain ⟨hij, hj⟩ := minMergePair_lt hmp
      have hgs' := mergeAt_goodState hgs hij hj
      rcases List.mem_cons.mp hs with h | h
      · rw [h]; exact hgs'
      · exact ih _ hgs' s h

theorem cut_clusters_goodState {n : Nat} {cutoff : ℚ} :
    ∀ (trace : List (ℚ × List (List Nat))) (init : List (List Nat)), GoodState n init →
      (∀ s ∈ trace, GoodState n s.2) → GoodState n (cut_clusters cutoff init trace) := by
  intro trace
  induction trace with
  | nil => intro init h _; exact h
  | cons s rest ih =>
    intro init hinit htr
    obtain ⟨h, cs⟩ := s
    rw [cut_clusters]
    split
    · exact ih cs (htr (h, cs) (List.mem_cons_self _ _))
        (fun t ht => htr t (List.mem_cons_of_mem _ ht))
    · exact hinit

theorem flatten_map_singleton (l : List α) : (l.map fun a => [a]).flatten = l := by
  induction l with
  | nil => rfl
  | cons a l ih => simp [ih]

theorem init_state_goodState (n : Nat) : GoodState n (init_state n) := by
  constructor
  · rw [init_state, flatten_map_singleton]
  · intro g hg
    obtain ⟨i, _, rfl⟩ := List.mem_map.mp hg
    simp

theorem cluster_groups_goodState (cutoff : ℚ) (working : List Junction) :
    GoodState working.length (cluster_groups cutoff working) := by
  rw [cluster_groups]
  exact cut_clusters_goodState _ _ (init_state_goodState _)
    (linkage_trace_goodState _ _ _ (init_state_goodState _))

theorem filterMap_getElem_range {α : Type} : ∀ (l : List α),
    ((List.range l.length).filterMap fun i => l[i]?) = l := by
  intro l
  induction l with
  | nil => rfl
  | cons x xs ih =>
    rw [List.length_cons, List.range_succ_eq_map, List.filterMap_cons_some
      (show (fun i => (x :: xs)[i]?) 0 = some x by simp),
      List.filterMap_map]
    have hcomp : ((fun i => (x :: xs)[i]?) ∘ Nat.succ) = fun i => xs[i]? := by
      funext i
      simp
    rw [hcomp, ih]

theorem flatten_map_perm_congr {α β : Type} {f g : List α → List β}
    (h : ∀ l, (f l).Perm (g l)) : ∀ (L : List (List α)),
      ((L.map f).flatten).Perm ((L.map g).flatten) := by
  intro L
  induction L with
  | nil => exact List.Perm.refl _
  | cons l L ih =>
    simp only [List.map_cons, List.flatten_cons]
    exact (h l).append ih

theorem cluster_groups_flatten_perm (cutoff : ℚ) (working : List Junction) :
    ((cluster_groups cutoff working).map fun g =>
      List.insertionSort junctionLE (g.filterMap fun i => working[i]?)).flatten.Perm
      working := by
  have hgs := cluster_groups_goodState cutoff working
  refine (flatten_map_perm_congr (fun g => List.perm_insertionSort junctionLE _) _).trans ?_
  rw [← List.filterMap_flatten]
  refine (hgs.1.filterMap _).trans ?_
  rw [filterMap_getElem_range]

theorem working_set_of_le {draw : List Junction → Nat → List Junction}
    {p : List Junction} (h : ¬ 200 < p.length) : working_set draw p = p := by
  rw [working_set, if_neg h]

theorem working_set_of_gt {draw : List Junction → Nat → List Junction}
    {p : List Junction} (h : 200 < p.length) : working_set draw p = draw p 200 := by
  rw [working_set, if_pos h, subsample_partition, if_pos (le_of_lt h)]
  rfl

theorem clusters_of_partition_ne_nil (draw : List Junction → Nat → List Junction)
    (cutoff : ℚ) {p : List Junction} (hp : p ≠ []) :
    ∀ C ∈ clusters_of_partition draw cutoff p, C ≠ [] := by
  intro C hC
  rw [clusters_of_partition] at hC
  split at hC
  · rw [List.mem_singleton.mp hC]; exact hp
  · obtain ⟨g, hg, rfl⟩ := List.mem_map.mp hC
    have hgs := cluster_groups_goodState cutoff (working_set draw p)
    obtain ⟨i, hi⟩ := List.exists_mem_of_ne_nil g (hgs.2 g hg)
    have hilt : i < (working_set draw p).length :=
      List.mem_range.mp (hgs.1.mem_iff.mp (List.mem_flatten.mpr ⟨g, hg, hi⟩))
    have hmem2 : (working_set draw p)[i] ∈ g.filterMap fun k => (working_set draw p)[k]? :=
      List.mem_filterMap.mpr ⟨i, hi, List.getElem?_eq_getElem hilt⟩
    exact List.ne_nil_of_mem ((List.perm_insertionSort junctionLE _).mem_iff.mpr hmem2)

theorem clusters_of_partition_flatten_perm (draw : List Junction → Nat → List Junction)
    (cutoff : ℚ) {p : List Junction} (_hp : p ≠ []) :
    (clusters_of_partition draw cutoff p).flatten.Perm (working_set draw p) := by
  rw [clusters_of_partition]
  split
  · rename_i h
    have h200 : ¬ 200 < p.length := by omega
    rw [working_set_of_le h200]
    simp
  · exact cluster_groups_flatten_perm cutoff (working_set draw p)

theorem subperm_append {α : Type} {l₁ l₂ r₁ r₂ : List α} (h1 : l₁.Subperm l₂)
    (h2 : r₁.Subperm r₂) : (l₁ ++ r₁).Subperm (l₂ ++ r₂) := by
  obtain ⟨u, hu, hsub⟩ := h1
  obtain ⟨v, hv, hsub2⟩ := h2
  exact ⟨u ++ v, hu.append hv, hsub.append hsub2⟩

theorem flatMap_clusters_cover (draw : List Junction → Nat → List Junction)
    (hdraw : ValidDraw draw) (cutoff : ℚ) :
    ∀ (parts : List (List Junction)), (∀ p ∈ parts, p ≠ []) →
      ((parts.flatMap (clusters_of_partition draw cutoff)).flatten).Subperm parts.flatten ∧
      ((∀ p ∈ parts, p.length ≤ 200) →
        ((parts.flatMap (clusters_of_partition draw cutoff)).flatten).Perm parts.flatten) := by
  intro parts
  induction parts with
  | nil =>
    intro _
    exact ⟨List.Subperm.refl _, fun _ => List.Perm.refl _⟩
  | cons p ps ih =>
    intro hne
    have ihp := ih (fun q hq => hne q (List.mem_cons_of_mem p hq))
    have hcov := clusters_of_partition_flatten_perm draw cutoff (hne p (List.mem_cons_self p ps))
    rw [List.flatMap_cons, List.flatten_append, List.flatten_cons]
    constructor
    · refine subperm_append ?_ ihp.1
      by_cases h : 200 < p.length
      · rw [working_set_of_gt h] at hcov
        exact hcov.subperm.trans ((hdraw p 200 (le_of_lt h)).2.subperm)
      · rw [working_set_of_le h] at hcov
        exact hcov.subperm
    · intro hall
      have h : ¬ 200 < p.length := by
        have := hall p (List.mem_cons_self p ps); omega
      rw [working_set_of_le h] at hcov
      exact hcov.append (ihp.2 (fun q hq => hall q (List.mem_cons_of_mem p hq)))

theorem partition_junctions_ne_nil (js : List Junction) :
    ∀ p ∈ partition_junctions js, p ≠ [] := by
  intro p hp
  obtain ⟨run1, run2, _, _, _, hne2, hPeq⟩ := partition_junctions_structure js p hp
  rw [hPeq]
  intro hcon
  have hlen := (List.perm_insertionSort junctionLE run2).length_eq
  rw [hcon] at hlen
  exact hne2 (List.length_eq_zero.mp hlen.symm)

/-- C5: every emitted cluster is non-empty; the clusters are disjoint over the input
(the multiset of all cluster members is a sub-multiset of the input, so no junction
is duplicated); and when no partition exceeds the ceiling of 200 the union of the
clusters is exactly the input multiset — every input junction lands in exactly one
output cluster, junctions being dropped only by subsampling of an oversized
partition. -/
theorem hierarchical_clustering_coverage (draw : List Junction → Nat → List Junction)
    (junctions : List Junction) (cutoff : ℚ) (hdraw : ValidDraw draw) :
    (∀ C ∈ hierarchical_clustering_method draw junctions cutoff, C ≠ []) ∧
    (hierarchical_clustering_method draw junctions cutoff).flatten.Subperm junctions ∧
    ((∀ p ∈ partition_junctions junctions, p.length ≤ 200) →
      (hierarchical_clustering_method draw junctions cutoff).flatten.Perm junctions) := by
  have hagg := flatMap_clusters_cover draw hdraw cutoff (partition_junctions junctions)
    (partition_junctions_ne_nil junctions)
  have hsort := List.perm_insertionSort clusterLE
    ((partition_junctions junctions).flatMap (clusters_of_partition draw cutoff))
  have hpart := partition_junctions_flatten_perm junctions
  simp only [hierarchical_clustering_method]
  refine ⟨?_, ?_, ?_⟩
  · intro C hC
    obtain ⟨p, hp, hCp⟩ := List.mem_flatMap.mp (hsort.mem_iff.mp hC)
    exact clusters_of_partition_ne_nil draw cutoff
      (partition_junctions_ne_nil junctions p hp) C hCp
  · exact hsort.flatten.subperm.trans (hagg.1.trans hpart.subperm)
  · intro hall
    exact hsort.flatten.trans ((hagg.2 hall).trans hpart)

/-- C6: subsampling happens exactly when a partition strictly exceeds 200 junctions —
such a partition contributes exactly 200 junctions (drawn from the partition itself)
to its output clusters and emits one diagnostic carrying its size and representative
member (`partition[0]`); a partition of at most 200 junctions is clustered in full
(its clusters hold exactly its own junctions) and emits no diagnostic. -/
theorem subsampling_semantics (draw : List Junction → Nat → List Junction)
    (hdraw : ValidDraw draw) (junctions : List Junction) (cutoff : ℚ)
    (p : List Junction) (hp : p ∈ partition_junctions junctions) :
    (200 < p.length →
      (clusters_of_partition draw cutoff p).flatten.length = 200 ∧
      (clusters_of_partition draw cutoff p).flatten.Subperm p ∧
      Diagnostic.mk p.length p.headI ∈ hierarchical_clustering_diagnostics junctions) ∧
    (p.length ≤ 200 →
      (clusters_of_partition draw cutoff p).flatten.Perm p ∧
      Diagnostic.mk p.length p.headI ∉ hierarchical_clustering_diagnostics junctions) := by
  have hne := partition_junctions_ne_nil junctions p hp
  have hcov := clusters_of_partition_flatten_perm draw cutoff (p := p) hne
  constructor
  · intro h
    rw [working_set_of_gt h] at hcov
    refine ⟨by rw [hcov.length_eq, (hdraw p 200 (le_of_lt h)).1], ?_, ?_⟩
    · exact hcov.subperm.trans (hdraw p 200 (le_of_lt h)).2.subperm
    · rw [hierarchical_clustering_diagnostics]
      exact List.mem_filterMap.mpr ⟨p, hp, by rw [if_pos h]⟩
  · intro h
    have h' : ¬ 200 < p.length := by omega
    rw [working_set_of_le h'] at hcov
    refine ⟨hcov, ?_⟩
    intro hmem
    rw [hierarchical_clustering_diagnostics] at hmem
    obtain ⟨q, hq, heq⟩ := List.mem_filterMap.mp hmem
    split at heq
    · rename_i hq200
      have := (Diagnostic.mk.injEq _ _ _ _).mp (Option.some_inj.mp heq)
      omega
    · exact absurd heq (by simp)

theorem cut_clusters_length_le (cutoff : ℚ) (d : Nat → Nat → ℚ) :
    ∀ (fuel : Nat) (cs : List (List Nat)),
      (cut_clusters cutoff cs (linkage_trace d fuel cs)).length ≤ cs.length := by
  intro fuel
  induction fuel with
  | zero => intro cs; simp [linkage_trace, cut_clusters]
  | succ fuel ih =>
    intro cs
    cases hmp : minMergePair d cs with
    | none => simp [linkage_trace, hmp, cut_clusters]
    | some p =>
      have hlt := minMergePair_lt hmp
      simp only [linkage_trace, hmp, cut_clusters]
      split
      · exact le_trans (ih (mergeAt cs p.1 p.2))
          (mergeAt_length_le cs p.1 p.2 (lt_trans hlt.1 hlt.2))
      · exact le_refl _

theorem cut_clusters_mono (d : Nat → Nat → ℚ) :
    ∀ (fuel : Nat) (cs : List (List Nat)) {c1 c2 : ℚ}, c1 ≤ c2 →
      (cut_clusters c2 cs (linkage_trace d fuel cs)).length ≤
      (cut_clusters c1 cs (linkage_trace d fuel cs)).length := by
  intro fuel
  induction fuel with
  | zero => intro cs c1 c2 _; simp [linkage_trace, cut_clusters]
  | succ fuel ih =>
    intro cs c1 c2 hc
    cases hmp : minMergePair d cs with
    | none => simp [linkage_trace, hmp, cut_clusters]
    | some p =>
      have hlt := minMergePair_lt hmp
      simp only [linkage_trace, hmp, cut_clusters]
      by_cases h1 : pairAvg d (cs.getD p.1 []) (cs.getD p.2 []) < c1
      · rw [if_pos h1, if_pos (lt_of_lt_of_le h1 hc)]
        exact ih (mergeAt cs p.1 p.2) hc
      · rw [if_neg h1]
        by_cases h2 : pairAvg d (cs.getD p.1 []) (cs.getD p.2 []) < c2
        · rw [if_pos h2]
          exact le_trans (cut_clusters_length_le c2 d fuel (mergeAt cs p.1 p.2))
            (mergeAt_length_le cs p.1 p.2 (lt_trans hlt.1 hlt.2))
        · rw [if_neg h2]

/-- C8: for a fixed partition (and a fixed draw), raising the clustering cutoff never
increases the number of clusters emitted for that partition — a larger cutoff lets
the merge trace run at least as deep before the cut. -/
theorem cutoff_monotonicity (draw : List Junction → Nat → List Junction)
    (p : List Junction) (c1 c2 : ℚ) (hc : c1 ≤ c2) :
    (clusters_of_partition draw c2 p).length ≤ (clusters_of_partition draw c1 p).length := by
  rw [clusters_of_partition, clusters_of_partition]
  split
  · exact le_refl _
  · simp only [List.length_map]
    rw [cluster_groups, cluster_groups]
    exact cut_clusters_mono _ _ _ hc

/-- Witness for C8 at a concrete two-junction partition and cutoffs 1 ≤ 2. -/
theorem cutoff_monotonicity_witness :
    (clusters_of_partition takeDraw 2 [jc1, jc3]).length ≤
      (clusters_of_partition takeDraw 1 [jc1, jc3]).length :=
  cutoff_monotonicity takeDraw [jc1, jc3] 1 2 (by norm_num)

theorem flatMap_congr_mem {α β : Type} {f g : α → List β} :
    ∀ {l : List α}, (∀ a ∈ l, f a = g a) → l.flatMap f = l.flatMap g
  | [], _ => rfl
  | x :: xs, h => by
    rw [List.flatMap_cons, List.flatMap_cons, h x (List.mem_cons_self x xs),
      flatMap_congr_mem (fun a ha => h a (List.mem_cons_of_mem x ha))]

theorem partition_junctions_sorted (js : List Junction) :
    ∀ p ∈ partition_junctions js, p.Sorted junctionLE := by
  intro p hp
  obtain ⟨_, run2, _, _, _, _, hPeq⟩ := partition_junctions_structure js p hp
  rw [hPeq]
  exact List.sorted_insertionSort junctionLE run2

theorem clusters_of_partition_draw_indep (d1 d2 : List Junction → Nat → List Junction)
    (cutoff : ℚ) {p : List Junction} (h : p.length ≤ 200) :
    clusters_of_partition d1 cutoff p = clusters_of_partition d2 cutoff p := by
  have h' : ¬ 200 < p.length := by omega
  rw [clusters_of_partition, clusters_of_partition, working_set_of_le h',
    working_set_of_le h']

theorem clusters_sorted (draw : List Junction → Nat → List Junction)
    (junctions : List Junction) (cutoff : ℚ) :
    ∀ C ∈ hierarchical_clustering_method draw junctions cutoff, C.Sorted junctionLE := by
  intro C hC
  simp only [hierarchical_clustering_method] at hC
  obtain ⟨p, hp, hCp⟩ :=
    List.mem_flatMap.mp ((List.perm_insertionSort clusterLE _).mem_iff.mp hC)
  rw [clusters_of_partition] at hCp
  split at hCp
  · rw [List.mem_singleton.mp hCp]
    exact partition_junctions_sorted junctions p hp
  · obtain ⟨g, hg, rfl⟩ := List.mem_map.mp hCp
    exact List.sorted_insertionSort junctionLE _

/-- C9: when no partition exceeds the ceiling of 200, the subsampling path is never
taken, so the output does not depend on the random engine at all — any two runs
coincide exactly — and the output order is deterministic: every cluster is sorted by
the junction order and the cluster list is sorted by the cluster order (its lead
junction). -/
theorem clustering_deterministic (draw1 draw2 : List Junction → Nat → List Junction)
    (junctions : List Junction) (cutoff : ℚ)
    (hsize : ∀ p ∈ partition_junctions junctions, p.length ≤ 200) :
    hierarchical_clustering_method draw1 junctions cutoff =
      hierarchical_clustering_method draw2 junctions cutoff ∧
    (∀ C ∈ hierarchical_clustering_method draw1 junctions cutoff, C.Sorted junctionLE) ∧
    (hierarchical_clustering_method draw1 junctions cutoff).Sorted clusterLE := by
  refine ⟨?_, clusters_sorted draw1 junctions cutoff, ?_⟩
  · simp only [hierarchical_clustering_method]
    rw [flatMap_congr_mem
      (fun p hp => clusters_of_partition_draw_indep draw1 draw2 cutoff (hsize p hp))]
  · simp only [hierarchical_clustering_method]
    exact List.sorted_insertionSort clusterLE _

/-- A second deterministic stand-in for the random engine, taking the last `k`
junctions; it differs from `takeDraw` on oversized partitions. -/
def dropDraw : List Junction → Nat → List Junction := fun p k => p.drop (p.length - k)

/-- Witness for C9: two different engines give the same result on a small input. -/
theorem clustering_deterministic_witness :
    hierarchical_clustering_method takeDraw exC2 7 =
      hierarchical_clustering_method dropDraw exC2 7 :=
  (clustering_deterministic takeDraw dropDraw exC2 7 (by decide)).1

/-- Witness for C5 on a concrete input with a valid draw. -/
theorem hierarchical_clustering_coverage_witness :
    (hierarchical_clustering_method takeDraw exC2 7).flatten.Perm exC2 :=
  (hierarchical_clustering_coverage takeDraw exC2 7 takeDraw_valid).2.2 (by decide)

theorem orderedInsert_replicate {α : Type} {r : α → α → Prop} [DecidableRel r] {a : α}
    (h : r a a) : ∀ (n : Nat),
      List.orderedInsert r a (List.replicate n a) = List.replicate (n + 1) a := by
  intro n
  cases n with
  | zero => rfl
  | succ n =>
    rw [List.replicate_succ, List.orderedInsert, if_pos h, ← List.replicate_succ,
      ← List.replicate_succ]

theorem insertionSort_replicate {α : Type} {r : α → α → Prop} [DecidableRel r] {a : α}
    (h : r a a) : ∀ (n : Nat),
      List.insertionSort r (List.replicate n a) = List.replicate n a := by
  intro n
  induction n with
  | zero => rfl
  | succ n ih =>
    rw [List.replicate_succ, List.insertionSort, ih, orderedInsert_replicate h]
    exact (List.replicate_succ a n).symm

theorem foldl_greedyStep_replicate {α : Type} {newGroup : α → α → Bool}
    {flush : List α → List (List α)} {a : α} (hng : newGroup a a = false) :
    ∀ (m : Nat) (cur : List α) (out : List (List α)), cur.getLast? = some a →
      (List.replicate m a).foldl (greedyStep newGroup flush) (cur, out)
        = (cur ++ List.replicate m a, out) := by
  intro m
  induction m with
  | zero => intro cur out _; simp
  | succ m ih =>
    intro cur out hlast
    rw [List.replicate_succ, List.foldl_cons]
    have hstep : greedyStep newGroup flush (cur, out) a = (cur ++ [a], out) := by
      simp only [greedyStep, hlast]
      rw [if_neg (by simp [hng])]
    rw [hstep, ih (cur ++ [a]) out (List.getLast?_concat _)]
    rw [List.append_assoc, List.singleton_append]

theorem greedySplit_replicate {α : Type} (newGroup : α → α → Bool)
    (flush : List α → List (List α)) (a : α) (n : Nat) (hng : newGroup a a = false) :
    greedySplit newGroup flush (List.replicate (n + 1) a)
      = flush (List.replicate (n + 1) a) := by
  have hfirst : greedyStep newGroup flush ([], ([] : List (List α))) a = ([a], []) := by
    simp [greedyStep]
  have hfold : (List.replicate (n + 1) a).foldl (greedyStep newGroup flush) ([], [])
      = (List.replicate (n + 1) a, []) := by
    rw [List.replicate_succ, List.foldl_cons, hfirst,
      foldl_greedyStep_replicate hng n [a] [] rfl, List.singleton_append]
  have hlast : (List.replicate (n + 1) a).getLast? = some a := by
    rw [List.replicate_succ', List.getLast?_concat]
  rw [greedySplit, hfold]
  simp only [greedyFinish, hlast]
  rw [List.nil_append]

theorem partition_junctions_replicate (a : Junction) (n : Nat)
    (h1 : newGroup1 a a = false) (h2 : newGroup2 a a = false) :
    partition_junctions (List.replicate (n + 1) a) = [List.replicate (n + 1) a] := by
  rw [partition_junctions, greedySplit_replicate _ _ _ _ h1,
    insertionSort_replicate (show mate2LE a a from le_refl _),
    split_partition_based_on_mate2, greedySplit_replicate _ _ _ _ h2,
    insertionSort_replicate (show junctionLE a a from le_refl _)]

/-- A partition of 201 identical junctions, for the C6 witness. -/
def exBig : List Junction := List.replicate 201 jBase

/-- Witness for C6: the 201-junction partition triggers subsampling — exactly 200
junctions across its clusters, drawn from the partition, and a diagnostic naming its
size and representative. -/
theorem subsampling_semantics_witness :
    (clusters_of_partition takeDraw 7 exBig).flatten.length = 200 ∧
    (clusters_of_partition takeDraw 7 exBig).flatten.Subperm exBig ∧
    Diagnostic.mk exBig.length exBig.headI ∈ hierarchical_clustering_diagnostics exBig := by
  have hp : exBig ∈ partition_junctions exBig := by
    rw [show exBig = List.replicate (200 + 1) jBase from rfl,
      partition_junctions_replicate jBase 200 (by decide) (by decide)]
    exact List.mem_singleton.mpr rfl
  exact (subsampling_semantics takeDraw takeDraw_valid exBig 7 exBig hp).1
    (by rw [show exBig = List.replicate 201 jBase from rfl, List.length_replicate]; omega)
